import Mathlib

/-
Verification of the fuddle-go client library (fuddle-io/fuddle-go).

The repository contains several historical generations of the same small
client; following the spec's design notes, the member-oriented variant is
the canonical one:
  * the glob matcher (package internal/wildcard, used by filter.go),
  * the filter engine (Filter / ServiceFilter / MetadataFilter, filter.go),
  * the member store (the second, member-oriented generation of registry.go:
    members map, localMembers set, subscribers, ApplyRemoteUpdate, ...),
  * the client operations of fuddle.go (Register / Unregister /
    UpdateMemberMetadata / connect) and the websocket-generation connect
    loop that aggregates per-seed dial failures.

Go maps are embedded as association lists with Go-map insert/delete
semantics (unique keys, in-place replacement); Go sets (map[string]struct{})
as duplicate-free lists.  Mutex acquisition and callback invocation are made
observable as an event trace so the locking discipline and the notification
contract can be stated.
-/

namespace FuddleGo


/-! ## Association-list embedding of Go maps -/

/-- Lookup `m[k]` in a Go map embedded as an association list. -/
def mapLookup (k : String) : List (String × α) → Option α
  | [] => none
  | (k', v) :: rest => if k' = k then some v else mapLookup k rest

/-- Assignment `m[k] = v` in a Go map: replace in place if the key is
present, otherwise add a new entry. -/
def mapInsert (k : String) (v : α) : List (String × α) → List (String × α)
  | [] => [(k, v)]
  | (k', v') :: rest =>
    if k' = k then (k, v) :: rest else (k', v') :: mapInsert k v rest

/-- Deletion `delete(m, k)` in a Go map. -/
def mapDelete (k : String) (l : List (String × α)) : List (String × α) :=
  l.filter (fun p => decide (p.1 ≠ k))

/-- Keys of an embedded Go map. -/
def mapKeys (l : List (String × α)) : List String :=
  l.map Prod.fst

/-- Insertion into a Go set (`map[string]struct{}`). -/
def setInsert (k : String) (s : List String) : List String :=
  if k ∈ s then s else s ++ [k]

/-- Deletion from a Go set. -/
def setDelete (k : String) (s : List String) : List String :=
  s.filter (fun x => decide (x ≠ k))

namespace Wildcard

/-- Core matcher on character lists.  A `*` consumes zero or more leading
characters of the literal, i.e. the rest of the pattern must match some
suffix of the literal; any other pattern character must match the literal's
head exactly. -/
def matchList : List Char → List Char → Bool
  | [], s => s.isEmpty
  | '*' :: p, s => s.tails.any (fun t => matchList p t)
  | _ :: _, [] => false
  | c :: p, c' :: s' => c == c' && matchList p s'

/-- Modelled from the spec: `wildcard.Match(pattern, literal)`. -/
def Match (pattern literal : String) : Bool :=
  matchList pattern.toList literal.toList

/-- Declarative semantics of a glob pattern, straight from the spec's words:
the whole literal is split so that every non-`*` pattern character matches
itself and every `*` matches zero or more characters. -/
inductive GlobSem : List Char → List Char → Prop
  | nil : GlobSem [] []
  | lit {c : Char} {p s : List Char} :
      c ≠ '*' → GlobSem p s → GlobSem (c :: p) (c :: s)
  | star {p s1 s2 : List Char} :
      GlobSem p s2 → GlobSem ('*' :: p) (s1 ++ s2)

end Wildcard

/-! ## Member record and the filter engine (filter.go, member.go of the
member-oriented generation) -/

/-- The `Member` record (member.go): immutable identity/attributes plus a
mutable metadata map. -/
structure Member where
  ID : String
  Service : String
  Locality : String
  Created : Int
  Revision : String
  Metadata : List (String × String)
deriving DecidableEq, Repr

/-- `MetadataFilter` (filter.go): each required key maps to the list of
acceptable value glob patterns. -/
abbrev MetadataFilter := List (String × List String)

/-- `MetadataFilter.Match` (filter.go): every required key must be present
in the member's metadata and its value must glob-match at least one of the
key's acceptable patterns. -/
def MetadataFilter.Match (f : MetadataFilter) (member : Member) : Bool :=
  match f with
  | [] => true
  | (filterKey, filterValues) :: rest =>
    match mapLookup filterKey member.Metadata with
    | none => false
    | some v =>
      if filterValues.any (fun filterValue => Wildcard.Match filterValue v) then
        MetadataFilter.Match rest member
      else
        false

/-- `ServiceFilter` (filter.go): an optional list of locality glob patterns
(Go `nil` slice = absent, modelled as `none`) and a metadata filter. -/
structure ServiceFilter where
  Locality : Option (List String)
  Metadata : MetadataFilter

/-- `ServiceFilter.Match` (filter.go): when the locality list is non-nil the
member's locality must glob-match at least one pattern, then the metadata
filter decides. -/
def ServiceFilter.Match (f : ServiceFilter) (member : Member) : Bool :=
  match f.Locality with
  | none => MetadataFilter.Match f.Metadata member
  | some locs =>
    if locs.any (fun filterLoc => Wildcard.Match filterLoc member.Locality) then
      MetadataFilter.Match f.Metadata member
    else
      false

/-- `Filter` (filter.go): maps service-name glob patterns to service
filters.  The Go map is embedded as an association list. -/
abbrev Filter := List (String × ServiceFilter)

/-- Loop body of `Filter.Match`: `acc` is the Go local `match` flag (set
once some service pattern matched) and an entry whose pattern matches but
whose service filter rejects aborts with `false`. -/
def Filter.MatchAux (member : Member) : Bool → List (String × ServiceFilter) → Bool
  | acc, [] => acc
  | acc, (filterService, filter) :: rest =>
    if Wildcard.Match filterService member.Service then
      if filter.Match member then Filter.MatchAux member true rest else false
    else
      Filter.MatchAux member acc rest

/-- `Filter.Match` (filter.go): at least one service pattern must match and
every service filter whose pattern matches must accept. -/
def Filter.Match (f : Filter) (member : Member) : Bool :=
  Filter.MatchAux member false f

/-! ## Member store (registry.go, member-oriented generation)

The store is `members map[string]*rpc.Member`, `localMembers
map[string]interface{}` and `subscribers map[*subscriber]interface{}`,
protected by one mutex.  Subscriber identities are natural numbers drawn
from a fresh counter, standing for the distinct `*subscriber` pointers Go
allocates; mutex acquisition/release and callback invocations are recorded
in an event trace. -/

/-- The wire-level `rpc.Member` record as the member-oriented generation
uses it.  `Version` is the server-assigned version read by
`KnownVersions`. -/
structure RpcMember where
  Id : String
  ClientId : String
  Service : String
  Locality : String
  Created : Int
  Revision : String
  Metadata : List (String × String)
  Version : Nat
deriving DecidableEq, Repr

/-- `Member.toRPC` (member.go): the client never sets `Version`, so it keeps
its protobuf zero value. -/
def Member.toRPC (m : Member) (clientID : String) : RpcMember :=
  { Id := m.ID
    ClientId := clientID
    Service := m.Service
    Locality := m.Locality
    Created := m.Created
    Revision := m.Revision
    Metadata := m.Metadata
    Version := 0 }

/-- `rpc.MemberUpdateType`: protobuf enums are open, so a wire value other
than the three recognized ones is represented by `UNKNOWN`. -/
inductive MemberUpdateType where
  | REGISTER
  | UNREGISTER
  | STATE
  | UNKNOWN (code : Int)
deriving DecidableEq, Repr

/-- `rpc.MemberUpdate`: the inbound/outbound update frame. -/
structure MemberUpdate where
  Id : String
  UpdateType : MemberUpdateType
  Member : RpcMember
deriving DecidableEq, Repr

/-- State of the `registry` struct. -/
structure Registry where
  members : List (String × RpcMember)
  localMembers : List String
  subscribers : List Nat
  nextSub : Nat
deriving DecidableEq, Repr

/-- `newRegistry()`. -/
def newRegistry : Registry :=
  { members := [], localMembers := [], subscribers := [], nextSub := 0 }

/-- Observable events of a store operation. -/
inductive Event where
  | lock
  | unlock
  | invoke (sub : Nat)
deriving DecidableEq, Repr

/-- `notifySubscribers`: acquire the mutex, snapshot the subscriber set,
release the mutex, then invoke each snapshotted callback. -/
def notifySubscribers (r : Registry) : List Event :=
  [Event.lock, Event.unlock] ++ r.subscribers.map Event.invoke

/-- `registry.RegisterLocal`: insert the member, mark its ID local,
notify. -/
def Registry.RegisterLocal (r : Registry) (member : RpcMember) :
    Registry × List Event :=
  let r' := { r with
    members := mapInsert member.Id member r.members
    localMembers := setInsert member.Id r.localMembers }
  (r', [Event.lock, Event.unlock] ++ notifySubscribers r')

/-- `registry.UnregisterLocal`: delete from both maps, notify. -/
def Registry.UnregisterLocal (r : Registry) (id : String) :
    Registry × List Event :=
  let r' := { r with
    members := mapDelete id r.members
    localMembers := setDelete id r.localMembers }
  (r', [Event.lock, Event.unlock] ++ notifySubscribers r')

/-- `registry.UpdateMetadataLocal`: merge the delta into the stored member's
metadata; a no-op without notification when the ID is unknown. -/
def Registry.UpdateMetadataLocal (r : Registry) (id : String)
    (metadata : List (String × String)) : Registry × List Event :=
  match mapLookup id r.members with
  | none => (r, [Event.lock, Event.unlock])
  | some member =>
    let member' := { member with
      Metadata := metadata.foldl (fun acc kv => mapInsert kv.1 kv.2 acc) member.Metadata }
    let r' := { r with members := mapInsert id member' r.members }
    (r', [Event.lock, Event.unlock] ++ notifySubscribers r')

/-- `registry.applyRegisterUpdateLocked`. -/
def Registry.applyRegisterUpdateLocked (r : Registry) (update : MemberUpdate) :
    Registry :=
  { r with members := mapInsert update.Id update.Member r.members }

/-- `registry.applyUnregisterUpdateLocked`. -/
def Registry.applyUnregisterUpdateLocked (r : Registry) (update : MemberUpdate) :
    Registry :=
  { r with members := mapDelete update.Id r.members }

/-- `registry.applyStateUpdateLocked`. -/
def Registry.applyStateUpdateLocked (r : Registry) (update : MemberUpdate) :
    Registry :=
  { r with members := mapInsert update.Id update.Member r.members }

/-- `registry.ApplyRemoteUpdate`: updates about local members are ignored
entirely (early return, no notification); otherwise dispatch on the update
type — an unrecognized type falls through the switch — and notify. -/
def Registry.ApplyRemoteUpdate (r : Registry) (update : MemberUpdate) :
    Registry × List Event :=
  if update.Id ∈ r.localMembers then
    (r, [Event.lock, Event.unlock])
  else
    let r' := match update.UpdateType with
      | .REGISTER => r.applyRegisterUpdateLocked update
      | .UNREGISTER => r.applyUnregisterUpdateLocked update
      | .STATE => r.applyStateUpdateLocked update
      | .UNKNOWN _ => r
    (r', [Event.lock, Event.unlock] ++ notifySubscribers r')

/-- `registry.Subscribe`: record the new subscriber under the mutex, release
it, then invoke the callback once synchronously before returning. -/
def Registry.Subscribe (r : Registry) : Registry × List Event :=
  let sub := r.nextSub
  let r' := { r with subscribers := r.subscribers ++ [sub], nextSub := sub + 1 }
  (r', [Event.lock, Event.unlock, Event.invoke sub])

/-- The unsubscribe closure returned by `registry.Subscribe`: delete the
subscriber under the mutex. -/
def Registry.Unsubscribe (r : Registry) (sub : Nat) : Registry × List Event :=
  ({ r with subscribers := r.subscribers.filter (fun x => decide (x ≠ sub)) },
    [Event.lock, Event.unlock])

/-- Body of `registry.KnownVersions` as a function of the two maps. -/
def knownVersionsOf (localMembers : List String)
    (members : List (String × RpcMember)) : List (String × Nat) :=
  members.filterMap (fun p => if p.1 ∈ localMembers then none else some (p.1, p.2.Version))

/-- `registry.KnownVersions`: versions of all non-local members. -/
def Registry.KnownVersions (r : Registry) : List (String × Nat) :=
  knownVersionsOf r.localMembers r.members

/-- The store's public operations, for quantifying over histories. -/
inductive Op where
  | registerLocal (member : RpcMember)
  | unregisterLocal (id : String)
  | updateMetadataLocal (id : String) (metadata : List (String × String))
  | applyRemoteUpdate (update : MemberUpdate)
  | subscribe
  | unsubscribe (sub : Nat)
deriving DecidableEq, Repr

/-- Dispatch one operation. -/
def Registry.step (r : Registry) : Op → Registry × List Event
  | .registerLocal m => r.RegisterLocal m
  | .unregisterLocal id => r.UnregisterLocal id
  | .updateMetadataLocal id md => r.UpdateMetadataLocal id md
  | .applyRemoteUpdate u => r.ApplyRemoteUpdate u
  | .subscribe => r.Subscribe
  | .unsubscribe s => r.Unsubscribe s

/-- Run a sequence of operations, concatenating their event traces. -/
def Registry.runOps (r : Registry) : List Op → Registry × List Event
  | [] => (r, [])
  | op :: ops =>
    let next := r.step op
    let rest := next.1.runOps ops
    (rest.1, next.2 ++ rest.2)

/-- States reachable from `newRegistry` by any operation sequence. -/
inductive Reachable : Registry → Prop
  | init : Reachable newRegistry
  | step {r : Registry} (op : Op) : Reachable r → Reachable (r.step op).1

/-- Structural well-formedness maintained by every operation: Go map keys
are unique and subscriber identities are below the allocation counter. -/
structure Registry.WF (r : Registry) : Prop where
  membersNodup : (mapKeys r.members).Nodup
  localNodup : r.localMembers.Nodup
  subsNodup : r.subscribers.Nodup
  subsLt : ∀ s ∈ r.subscribers, s < r.nextSub

/-! ### Event-trace lemmas: locking discipline and notification counting -/

/-- Checks that every `invoke` event of a trace occurs while the mutex
depth is zero, starting from depth `d`. -/
def invokesOutsideLockFrom : Nat → List Event → Bool
  | _, [] => true
  | d, Event.lock :: es => invokesOutsideLockFrom (d + 1) es
  | d, Event.unlock :: es => invokesOutsideLockFrom (d - 1) es
  | d, Event.invoke _ :: es => d == 0 && invokesOutsideLockFrom d es

/-- The operations after which the member store notifies its subscribers: a
local register or unregister, a local metadata update for a known member,
and a remote update not addressed to a locally-owned member. -/
def appliedChange (r : Registry) : Op → Prop
  | .registerLocal _ => True
  | .unregisterLocal _ => True
  | .updateMetadataLocal id _ => mapLookup id r.members ≠ none
  | .applyRemoteUpdate u => u.Id ∉ r.localMembers
  | .subscribe => False
  | .unsubscribe _ => False

/-! ## Client operations (fuddle.go, member-oriented generation)

`Register`, `Unregister` and `UpdateMemberMetadata` first perform the RPC
and inspect both the transport error and the response's explicit `Error`
field; the local store is touched only after a clean response.  The server
interaction is a parameter (`reply`). -/

/-- `rpc.ErrorV2`: the explicit error a server response may carry. -/
structure ErrorV2 where
  Status : String
  Description : String
deriving DecidableEq, Repr

/-- `rpcErrorToError` (fuddle.go). -/
def rpcErrorToError (e : ErrorV2) : String :=
  e.Status ++ ": " ++ e.Description

/-- Outcome of a register / unregister / update-metadata RPC: a transport
error, or a response optionally carrying an explicit server `Error`. -/
abbrev RpcReply := Except String (Option ErrorV2)

/-- `Fuddle.Register` (fuddle.go): on transport error or explicit server
rejection, return the error and leave the store unchanged; otherwise apply
`RegisterLocal` with the member converted by `toRPC`. -/
def Fuddle.Register (reply : RpcReply) (reg : Registry) (member : Member)
    (clientID : String) : Except String Unit × Registry :=
  match reply with
  | .error e => (.error ("fuddle: register: " ++ e), reg)
  | .ok (some e) => (.error ("fuddle: register: " ++ rpcErrorToError e), reg)
  | .ok none => (.ok (), (reg.RegisterLocal (member.toRPC clientID)).1)

/-- `Fuddle.Unregister` (fuddle.go).  The rejection branch reuses the
"fuddle: register:" message prefix, as the source does. -/
def Fuddle.Unregister (reply : RpcReply) (reg : Registry) (id : String) :
    Except String Unit × Registry :=
  match reply with
  | .error e => (.error ("fuddle: unregister: " ++ e), reg)
  | .ok (some e) => (.error ("fuddle: register: " ++ rpcErrorToError e), reg)
  | .ok none => (.ok (), (reg.UnregisterLocal id).1)

/-- `Fuddle.UpdateMemberMetadata` (fuddle.go). -/
def Fuddle.UpdateMemberMetadata (reply : RpcReply) (reg : Registry)
    (id : String) (metadata : List (String × String)) :
    Except String Unit × Registry :=
  match reply with
  | .error e => (.error ("fuddle: update member metadata: " ++ e), reg)
  | .ok (some e) =>
    (.error ("fuddle: update member metadata: " ++ rpcErrorToError e), reg)
  | .ok none => (.ok (), (reg.UpdateMetadataLocal id metadata).1)

/-! ## Connect

Two generations are in the source: the canonical gRPC `Fuddle.connect`
(fuddle.go) whose empty-seed check fails before any dialling, and the
websocket-generation `connect` loop that tries each seed once and
aggregates the per-seed errors with go-multierror. -/

/-- An established transport connection (abstract). -/
structure Conn where
  addr : String
deriving DecidableEq, Repr

/-- The websocket-generation `connect` loop: try each address in turn with
`dial`, return the first success, otherwise accumulate every per-address
error (go-multierror).  `errs` and `attempted` are the accumulators; the
second result component records the addresses actually dialled, in order. -/
def connectLoop (dial : String → Except String Conn) :
    List String → List String → List String →
      (Except (List String) Conn) × List String
  | errs, attempted, [] => (.error errs, attempted)
  | errs, attempted, addr :: rest =>
    match dial addr with
    | .error e => connectLoop dial (errs ++ [e]) (attempted ++ [addr]) rest
    | .ok c => (.ok c, attempted ++ [addr])

/-- `connect(addrs, timeout)` of the websocket generation. -/
def connect (dial : String → Except String Conn) (addrs : List String) :
    (Except (List String) Conn) × List String :=
  connectLoop dial [] [] addrs

/-- The empty-seed check of the canonical `Fuddle.connect` (fuddle.go): an
empty seed list fails immediately, before the dialler is consulted. -/
def Fuddle.connectSeeds (dialAll : List String → Except String Conn)
    (seeds : List String) : Except String Conn :=
  if seeds.length = 0 then .error "connect: no seeds addresses"
  else
    match dialAll seeds with
    | .error e => .error ("connect: " ++ e)
    | .ok c => .ok c

/-! ## Concrete sample data used by the witnesses -/

/-- A concrete wire-level member. -/
def sampleRpcMember : RpcMember :=
  { Id := "m1", ClientId := "c1", Service := "orders",
    Locality := "eu-west-1-a", Created := 0, Revision := "v1",
    Metadata := [("k", "v")], Version := 3 }

/-- A concrete second wire-level member, owned remotely. -/
def sampleRpcMember2 : RpcMember :=
  { Id := "m2", ClientId := "c9", Service := "carts",
    Locality := "eu-west-2-b", Created := 5, Revision := "v2",
    Metadata := [], Version := 7 }

/-- A concrete remote register update for the second member. -/
def sampleRemoteRegister : MemberUpdate :=
  { Id := "m2", UpdateType := .REGISTER, Member := sampleRpcMember2 }

/-- A reachable state: one local member, one remote member. -/
def sampleReachableState : Registry :=
  ((newRegistry.step (Op.registerLocal sampleRpcMember)).1.step
    (Op.applyRemoteUpdate sampleRemoteRegister)).1

/-- The sample state after one `Subscribe` (subscriber 0, counter 1). -/
def sampleSubscribedState : Registry :=
  (sampleReachableState.step Op.subscribe).1

/-! ### RPC failures and the local store (C6) -/

/-- A reply that is a transport error or carries an explicit server
rejection. -/
def replyFailed : RpcReply → Prop
  | .error _ => True
  | .ok (some _) => True
  | .ok none => False

/-! ### Sanity checks against the repository's own filter tests -/

/-- The spec's worked filter example's service filter. -/
def sanityServiceFilter : ServiceFilter :=
  { Locality := some ["eu-west-*"], Metadata := [("foo", ["bar", "car"])] }

/-! ## Theorems -/

namespace Wildcard

/-- Inversion for a leading `*`: some split of the literal has its suffix
matched by the rest of the pattern. -/
theorem GlobSem.star_inv {p s : List Char} (h : GlobSem ('*' :: p) s) :
    ∃ s1 s2, s = s1 ++ s2 ∧ GlobSem p s2 := by
  generalize hq : '*' :: p = q at h
  cases h with
  | nil => exact absurd hq (by simp)
  | lit hne hsem =>
    obtain ⟨rfl, -⟩ := List.cons.inj hq
    exact absurd rfl hne
  | star hsem =>
    obtain ⟨-, rfl⟩ := List.cons.inj hq
    exact ⟨_, _, rfl, hsem⟩

/-- Inversion for a leading literal character: the literal starts with that
character and the tails match. -/
theorem GlobSem.lit_inv {c : Char} {p s : List Char} (hc : c ≠ '*')
    (h : GlobSem (c :: p) s) : ∃ s', s = c :: s' ∧ GlobSem p s' := by
  generalize hq : c :: p = q at h
  cases h with
  | nil => exact absurd hq (by simp)
  | lit hne hsem =>
    obtain ⟨rfl, rfl⟩ := List.cons.inj hq
    exact ⟨_, rfl, hsem⟩
  | star hsem =>
    obtain ⟨rfl, -⟩ := List.cons.inj hq
    exact absurd rfl hc

theorem matchList_iff_globSem (p s : List Char) :
    matchList p s = true ↔ GlobSem p s := by
  induction p generalizing s with
  | nil =>
    simp only [matchList, List.isEmpty_iff]
    constructor
    · rintro rfl; exact GlobSem.nil
    · rintro h; cases h; rfl
  | cons c p ih =>
    by_cases hc : c = '*'
    · subst hc
      simp only [matchList, List.any_eq_true]
      constructor
      · rintro ⟨t, ht, hm⟩
        obtain ⟨s1, rfl⟩ := (List.mem_tails t s).mp ht
        exact GlobSem.star ((ih t).mp hm)
      · intro h
        obtain ⟨s1, s2, rfl, hsem⟩ := h.star_inv
        exact ⟨s2, (List.mem_tails s2 (s1 ++ s2)).mpr ⟨s1, rfl⟩, (ih s2).mpr hsem⟩
    · cases s with
      | nil =>
        simp only [matchList, hc]
        constructor
        · intro h; exact absurd h (by simp)
        · intro h
          obtain ⟨s', hs', -⟩ := GlobSem.lit_inv hc h
          exact absurd hs' (by simp)
      | cons c' s' =>
        simp only [matchList, hc, Bool.and_eq_true, beq_iff_eq]
        constructor
        · rintro ⟨rfl, hm⟩
          exact GlobSem.lit hc ((ih s').mp hm)
        · intro h
          obtain ⟨s'', hs'', hsem⟩ := GlobSem.lit_inv hc h
          obtain ⟨rfl, rfl⟩ := List.cons.inj hs''
          exact ⟨rfl, (ih _).mpr hsem⟩

end Wildcard

/-! ### Characterizations of the filter engine -/

theorem MetadataFilter.match_all_keys_iff (f : MetadataFilter) (m : Member) :
    MetadataFilter.Match f m = true ↔
      ∀ k pats, (k, pats) ∈ f →
        ∃ v, mapLookup k m.Metadata = some v ∧
          pats.any (fun pat => Wildcard.Match pat v) = true := by
  induction f with
  | nil => simp [MetadataFilter.Match]
  | cons kv rest ih =>
    obtain ⟨k, pats⟩ := kv
    simp only [MetadataFilter.Match]
    cases hl : mapLookup k m.Metadata with
    | none =>
      simp only [hl, Bool.false_eq_true, false_iff]
      intro h
      obtain ⟨v, hv, -⟩ := h k pats (List.mem_cons_self _ _)
      rw [hl] at hv
      cases hv
    | some v =>
      simp only [hl]
      by_cases hany : (pats.any fun filterValue => Wildcard.Match filterValue v) = true
      · rw [if_pos hany, ih]
        constructor
        · intro hall k' pats' hmem
          rcases List.mem_cons.mp hmem with heq | hmem'
          · obtain ⟨rfl, rfl⟩ := Prod.mk.inj heq
            exact ⟨v, hl, hany⟩
          · exact hall k' pats' hmem'
        · intro hall k' pats' hmem'
          exact hall k' pats' (List.mem_cons_of_mem _ hmem')
      · rw [if_neg hany]
        simp only [Bool.false_eq_true, false_iff]
        intro h
        obtain ⟨v', hv', hany'⟩ := h k pats (List.mem_cons_self _ _)
        rw [hl] at hv'
        cases hv'
        exact hany hany'

theorem ServiceFilter.match_locality_none {sf : ServiceFilter} {m : Member}
    (h : sf.Locality = none) :
    sf.Match m = MetadataFilter.Match sf.Metadata m := by
  unfold ServiceFilter.Match
  simp only [h]

theorem ServiceFilter.match_locality_some {sf : ServiceFilter} {m : Member}
    {locs : List String} (h : sf.Locality = some locs) :
    sf.Match m =
      ((locs.any fun filterLoc => Wildcard.Match filterLoc m.Locality) &&
        MetadataFilter.Match sf.Metadata m) := by
  unfold ServiceFilter.Match
  simp only [h]
  by_cases hany : (locs.any fun filterLoc => Wildcard.Match filterLoc m.Locality) = true
  · rw [if_pos hany, hany, Bool.true_and]
  · rw [if_neg hany, Bool.eq_false_iff.mpr hany, Bool.false_and]

/-- A member accepted by a service filter is accepted by its metadata
filter. -/
theorem ServiceFilter.match_imp_metadata {sf : ServiceFilter} {m : Member}
    (h : sf.Match m = true) : MetadataFilter.Match sf.Metadata m = true := by
  cases hloc : sf.Locality with
  | none => rw [ServiceFilter.match_locality_none hloc] at h; exact h
  | some locs =>
    rw [ServiceFilter.match_locality_some hloc, Bool.and_eq_true] at h
    exact h.2

theorem Filter.matchAux_true_iff (m : Member) (l : List (String × ServiceFilter))
    (acc : Bool) :
    Filter.MatchAux m acc l = true ↔
      ((∀ p sf, (p, sf) ∈ l → Wildcard.Match p m.Service = true →
          sf.Match m = true) ∧
        (acc = true ∨
          ∃ p sf, (p, sf) ∈ l ∧ Wildcard.Match p m.Service = true)) := by
  induction l generalizing acc with
  | nil => simp [Filter.MatchAux]
  | cons e rest ih =>
    obtain ⟨fs, sf⟩ := e
    simp only [Filter.MatchAux]
    by_cases hw : Wildcard.Match fs m.Service = true
    · rw [if_pos hw]
      by_cases hm : sf.Match m = true
      · rw [if_pos hm, ih]
        constructor
        · rintro ⟨hall, -⟩
          refine ⟨?_, Or.inr ⟨fs, sf, List.mem_cons_self _ _, hw⟩⟩
          intro p sf' hmem hwp
          rcases List.mem_cons.mp hmem with heq | hmem'
          · obtain ⟨rfl, rfl⟩ := Prod.mk.inj heq
            exact hm
          · exact hall p sf' hmem' hwp
        · rintro ⟨hall, -⟩
          refine ⟨?_, Or.inl rfl⟩
          intro p sf' hmem' hwp
          exact hall p sf' (List.mem_cons_of_mem _ hmem') hwp
      · rw [if_neg hm]
        simp only [Bool.false_eq_true, false_iff]
        rintro ⟨hall, -⟩
        exact hm (hall fs sf (List.mem_cons_self _ _) hw)
    · rw [if_neg hw, ih]
      constructor
      · rintro ⟨hall, hsome⟩
        refine ⟨?_, ?_⟩
        · intro p sf' hmem hwp
          rcases List.mem_cons.mp hmem with heq | hmem'
          · obtain ⟨rfl, rfl⟩ := Prod.mk.inj heq
            exact absurd hwp hw
          · exact hall p sf' hmem' hwp
        · rcases hsome with hacc | ⟨p, sf', hmem', hwp⟩
          · exact Or.inl hacc
          · exact Or.inr ⟨p, sf', List.mem_cons_of_mem _ hmem', hwp⟩
      · rintro ⟨hall, hsome⟩
        refine ⟨?_, ?_⟩
        · intro p sf' hmem' hwp
          exact hall p sf' (List.mem_cons_of_mem _ hmem') hwp
        · rcases hsome with hacc | ⟨p, sf', hmem, hwp⟩
          · exact Or.inl hacc
          · rcases List.mem_cons.mp hmem with heq | hmem'
            · obtain ⟨rfl, rfl⟩ := Prod.mk.inj heq
              exact absurd hwp hw
            · exact Or.inr ⟨p, sf', hmem', hwp⟩

theorem Filter.match_true_iff (f : Filter) (m : Member) :
    Filter.Match f m = true ↔
      ((∃ p sf, (p, sf) ∈ f ∧ Wildcard.Match p m.Service = true) ∧
        ∀ p sf, (p, sf) ∈ f → Wildcard.Match p m.Service = true →
          sf.Match m = true) := by
  rw [Filter.Match, Filter.matchAux_true_iff]
  constructor
  · rintro ⟨hall, hsome⟩
    rcases hsome with hacc | hex
    · cases hacc
    · exact ⟨hex, hall⟩
  · rintro ⟨hex, hall⟩
    exact ⟨hall, Or.inr hex⟩

/-! ### Helper lemmas about the Go-map and Go-set embeddings -/

theorem mapLookup_insert_self (k : String) (v : α) (l : List (String × α)) :
    mapLookup k (mapInsert k v l) = some v := by
  induction l with
  | nil => simp [mapInsert, mapLookup]
  | cons p rest ih =>
    obtain ⟨k', v'⟩ := p
    by_cases h : k' = k
    · subst h
      simp [mapInsert, mapLookup]
    · simp [mapInsert, mapLookup, h, ih]

theorem mapLookup_mem {k : String} {v : α} {l : List (String × α)}
    (h : mapLookup k l = some v) : (k, v) ∈ l := by
  induction l with
  | nil => cases h
  | cons p rest ih =>
    obtain ⟨k', v'⟩ := p
    by_cases hk : k' = k
    · subst hk
      rw [mapLookup, if_pos rfl] at h
      cases h
      exact List.mem_cons_self _ _
    · rw [mapLookup, if_neg hk] at h
      exact List.mem_cons_of_mem _ (ih h)

theorem mem_mapKeys_insert {a k : String} {v : α} {l : List (String × α)}
    (h : a ∈ mapKeys (mapInsert k v l)) : a = k ∨ a ∈ mapKeys l := by
  induction l with
  | nil =>
    simp only [mapInsert, mapKeys, List.map_cons, List.map_nil,
      List.mem_singleton] at h
    exact Or.inl h
  | cons p rest ih =>
    obtain ⟨k', v'⟩ := p
    by_cases hk : k' = k
    · subst hk
      simp only [mapInsert, if_true, eq_self_iff_true, if_pos, mapKeys,
        List.map_cons, List.mem_cons] at h
      simp only [mapKeys, List.map_cons, List.mem_cons]
      rcases h with h | h
      · exact Or.inl h
      · exact Or.inr (Or.inr h)
    · simp only [mapInsert, if_neg hk, mapKeys, List.map_cons,
        List.mem_cons] at h
      simp only [mapKeys, List.map_cons, List.mem_cons]
      rcases h with h | h
      · exact Or.inr (Or.inl h)
      · rcases ih h with h' | h'
        · exact Or.inl h'
        · exact Or.inr (Or.inr h')

theorem mapKeys_insert_nodup {l : List (String × α)} (k : String) (v : α)
    (h : (mapKeys l).Nodup) : (mapKeys (mapInsert k v l)).Nodup := by
  induction l with
  | nil => simp [mapInsert, mapKeys]
  | cons p rest ih =>
    obtain ⟨k', v'⟩ := p
    simp only [mapKeys, List.map_cons, List.nodup_cons] at h
    by_cases hk : k' = k
    · subst hk
      simpa [mapInsert, mapKeys, List.nodup_cons] using h
    · simp only [mapInsert, if_neg hk, mapKeys, List.map_cons, List.nodup_cons]
      refine ⟨fun hmem => ?_, ih h.2⟩
      rcases mem_mapKeys_insert hmem with rfl | hmem'
      · exact hk rfl
      · exact h.1 hmem'

theorem mapKeys_delete_sublist (k : String) (l : List (String × α)) :
    (mapKeys (mapDelete k l)).Sublist (mapKeys l) :=
  List.Sublist.map Prod.fst (List.filter_sublist l)

theorem mem_setInsert_self (k : String) (s : List String) :
    k ∈ setInsert k s := by
  unfold setInsert
  by_cases h : k ∈ s
  · rwa [if_pos h]
  · rw [if_neg h]
    simp

theorem setInsert_nodup {s : List String} (k : String) (h : s.Nodup) :
    (setInsert k s).Nodup := by
  unfold setInsert
  by_cases hk : k ∈ s
  · rwa [if_pos hk]
  · rw [if_neg hk]
    simpa [List.nodup_append] using ⟨h, fun hmem => hk hmem⟩

theorem not_mem_setDelete_self (k : String) (s : List String) :
    k ∉ setDelete k s := by
  unfold setDelete
  intro h
  have := List.of_mem_filter h
  simp at this

theorem mem_of_mem_setDelete {a k : String} {s : List String}
    (h : a ∈ setDelete k s) : a ∈ s :=
  List.mem_of_mem_filter h

/-! ### The well-formedness invariant is maintained by every operation -/

theorem Registry.WF.init : newRegistry.WF :=
  ⟨List.nodup_nil, List.nodup_nil, List.nodup_nil, by intro s h; cases h⟩

theorem Registry.WF.registerLocal {r : Registry} (h : r.WF) (m : RpcMember) :
    (r.RegisterLocal m).1.WF :=
  ⟨mapKeys_insert_nodup _ _ h.membersNodup, setInsert_nodup _ h.localNodup,
    h.subsNodup, h.subsLt⟩

theorem Registry.WF.unregisterLocal {r : Registry} (h : r.WF) (id : String) :
    (r.UnregisterLocal id).1.WF :=
  ⟨(mapKeys_delete_sublist id r.members).nodup h.membersNodup,
    List.Nodup.filter _ h.localNodup, h.subsNodup, h.subsLt⟩

theorem Registry.WF.updateMetadataLocal {r : Registry} (h : r.WF)
    (id : String) (md : List (String × String)) :
    (r.UpdateMetadataLocal id md).1.WF := by
  unfold Registry.UpdateMetadataLocal
  cases hl : mapLookup id r.members with
  | none => simpa only [hl] using h
  | some mem =>
    simp only [hl]
    exact ⟨mapKeys_insert_nodup _ _ h.membersNodup, h.localNodup,
      h.subsNodup, h.subsLt⟩

theorem Registry.WF.applyRemoteUpdate {r : Registry} (h : r.WF)
    (u : MemberUpdate) : (r.ApplyRemoteUpdate u).1.WF := by
  unfold Registry.ApplyRemoteUpdate
  by_cases hloc : u.Id ∈ r.localMembers
  · simpa only [if_pos hloc] using h
  · simp only [if_neg hloc]
    cases hty : u.UpdateType with
    | REGISTER =>
      exact ⟨mapKeys_insert_nodup _ _ h.membersNodup, h.localNodup,
        h.subsNodup, h.subsLt⟩
    | UNREGISTER =>
      exact ⟨(mapKeys_delete_sublist u.Id r.members).nodup h.membersNodup,
        h.localNodup, h.subsNodup, h.subsLt⟩
    | STATE =>
      exact ⟨mapKeys_insert_nodup _ _ h.membersNodup, h.localNodup,
        h.subsNodup, h.subsLt⟩
    | UNKNOWN code => exact h

theorem Registry.WF.subscribe {r : Registry} (h : r.WF) :
    r.Subscribe.1.WF := by
  refine ⟨h.membersNodup, h.localNodup, ?_, ?_⟩
  · have hfresh : r.nextSub ∉ r.subscribers := fun hmem =>
      absurd (h.subsLt _ hmem) (lt_irrefl _)
    simpa [Registry.Subscribe, List.nodup_append] using ⟨h.subsNodup, hfresh⟩
  · intro s hs
    rcases List.mem_append.mp hs with hs' | hs'
    · exact Nat.lt_succ_of_lt (h.subsLt _ hs')
    · simp only [List.mem_singleton] at hs'
      subst hs'
      exact Nat.lt_succ_self _

theorem Registry.WF.unsubscribe {r : Registry} (h : r.WF) (s : Nat) :
    (r.Unsubscribe s).1.WF :=
  ⟨h.membersNodup, h.localNodup, List.Nodup.filter _ h.subsNodup,
    fun x hx => h.subsLt x (List.mem_of_mem_filter hx)⟩

theorem Registry.WF.step {r : Registry} (h : r.WF) (op : Op) :
    (r.step op).1.WF := by
  cases op with
  | registerLocal m => exact h.registerLocal m
  | unregisterLocal id => exact h.unregisterLocal id
  | updateMetadataLocal id md => exact h.updateMetadataLocal id md
  | applyRemoteUpdate u => exact h.applyRemoteUpdate u
  | subscribe => exact h.subscribe
  | unsubscribe s => exact h.unsubscribe s

/-- Every reachable store state is well-formed. -/
theorem Reachable.wf {r : Registry} (h : Reachable r) : r.WF := by
  induction h with
  | init => exact Registry.WF.init
  | step op _ ih => exact ih.step op

theorem invokesOutsideLockFrom_lock_unlock (es : List Event) :
    invokesOutsideLockFrom 0 (Event.lock :: Event.unlock :: es) =
      invokesOutsideLockFrom 0 es := rfl

theorem invokesOutsideLockFrom_map_invoke (subs : List Nat) :
    invokesOutsideLockFrom 0 (subs.map Event.invoke) = true := by
  induction subs with
  | nil => rfl
  | cons s rest ih => simpa [invokesOutsideLockFrom] using ih

theorem invokesOutsideLockFrom_notify (r : Registry) :
    invokesOutsideLockFrom 0 (notifySubscribers r) = true := by
  rw [notifySubscribers, List.cons_append, List.singleton_append,
    invokesOutsideLockFrom_lock_unlock]
  exact invokesOutsideLockFrom_map_invoke r.subscribers

theorem invoke_injective : Function.Injective Event.invoke := by
  intro a b h
  cases h
  rfl

theorem invoke_mem_notify {s : Nat} {r : Registry} :
    Event.invoke s ∈ notifySubscribers r ↔ s ∈ r.subscribers := by
  rw [notifySubscribers, List.mem_append]
  constructor
  · rintro (h | h)
    · simp at h
    · obtain ⟨x, hx, hinv⟩ := List.mem_map.mp h
      exact (invoke_injective hinv) ▸ hx
  · intro h
    exact Or.inr (List.mem_map.mpr ⟨s, h, rfl⟩)

theorem count_invoke_notify (s : Nat) (r : Registry) :
    (notifySubscribers r).count (Event.invoke s) = r.subscribers.count s := by
  rw [notifySubscribers]
  rw [List.count_append]
  have h1 : ([Event.lock, Event.unlock]).count (Event.invoke s) = 0 := rfl
  rw [h1, Nat.zero_add]
  exact List.count_map_of_injective r.subscribers Event.invoke invoke_injective s

theorem invokesOutsideLockFrom_append_lock_unlock (es : List Event) :
    invokesOutsideLockFrom 0 ([Event.lock, Event.unlock] ++ es) =
      invokesOutsideLockFrom 0 es := rfl

theorem invoke_mem_trace {s : Nat} {r' : Registry}
    (h : Event.invoke s ∈ [Event.lock, Event.unlock] ++ notifySubscribers r') :
    s ∈ r'.subscribers := by
  rcases List.mem_append.mp h with h | h
  · simp at h
  · exact invoke_mem_notify.mp h

/-- Every operation's trace invokes callbacks only at mutex depth zero. -/
theorem step_invokes_outside_lock (r : Registry) (op : Op) :
    invokesOutsideLockFrom 0 (r.step op).2 = true := by
  cases op with
  | registerLocal m =>
    simp only [Registry.step, Registry.RegisterLocal]
    rw [invokesOutsideLockFrom_append_lock_unlock]
    exact invokesOutsideLockFrom_notify _
  | unregisterLocal id =>
    simp only [Registry.step, Registry.UnregisterLocal]
    rw [invokesOutsideLockFrom_append_lock_unlock]
    exact invokesOutsideLockFrom_notify _
  | updateMetadataLocal id md =>
    simp only [Registry.step, Registry.UpdateMetadataLocal]
    cases hl : mapLookup id r.members with
    | none => rfl
    | some mem =>
      exact (invokesOutsideLockFrom_append_lock_unlock _).trans
        (invokesOutsideLockFrom_notify _)
  | applyRemoteUpdate u =>
    simp only [Registry.step, Registry.ApplyRemoteUpdate]
    by_cases hloc : u.Id ∈ r.localMembers
    · simp only [if_pos hloc]; rfl
    · simp only [if_neg hloc]
      rw [invokesOutsideLockFrom_append_lock_unlock]
      exact invokesOutsideLockFrom_notify _
  | subscribe => rfl
  | unsubscribe s => rfl

/-- Every callback invoked by an operation belongs to the subscriber set the
operation snapshotted (the post-state subscriber set). -/
theorem step_invoke_mem {r : Registry} {op : Op} {s : Nat}
    (h : Event.invoke s ∈ (r.step op).2) : s ∈ (r.step op).1.subscribers := by
  cases op with
  | registerLocal m =>
    simp only [Registry.step, Registry.RegisterLocal] at h ⊢
    exact invoke_mem_trace h
  | unregisterLocal id =>
    simp only [Registry.step, Registry.UnregisterLocal] at h ⊢
    exact invoke_mem_trace h
  | updateMetadataLocal id md =>
    simp only [Registry.step, Registry.UpdateMetadataLocal] at h ⊢
    cases hl : mapLookup id r.members with
    | none => rw [hl] at h; simp at h
    | some mem => rw [hl] at h; exact invoke_mem_trace h
  | applyRemoteUpdate u =>
    simp only [Registry.step, Registry.ApplyRemoteUpdate] at h ⊢
    by_cases hloc : u.Id ∈ r.localMembers
    · rw [if_pos hloc] at h; simp at h
    · rw [if_neg hloc] at h ⊢
      exact invoke_mem_trace h
  | subscribe =>
    simp only [Registry.step, Registry.Subscribe] at h ⊢
    simp only [List.mem_cons, List.not_mem_nil, or_false] at h
    rcases h with h | h | h
    · cases h
    · cases h
    · cases Event.invoke.inj h
      exact List.mem_append_right _ (List.mem_singleton.mpr rfl)
  | unsubscribe sub =>
    simp only [Registry.step, Registry.Unsubscribe] at h
    simp at h

/-- The post-state subscriber set only ever gains the freshly allocated
identity. -/
theorem step_subscribers_sub {r : Registry} (op : Op) {s : Nat}
    (h : s ∈ (r.step op).1.subscribers) : s ∈ r.subscribers ∨ s = r.nextSub := by
  cases op with
  | registerLocal m => exact Or.inl h
  | unregisterLocal id => exact Or.inl h
  | updateMetadataLocal id md =>
    simp only [Registry.step, Registry.UpdateMetadataLocal] at h
    cases hl : mapLookup id r.members with
    | none => rw [hl] at h; exact Or.inl h
    | some mem => rw [hl] at h; exact Or.inl h
  | applyRemoteUpdate u =>
    simp only [Registry.step, Registry.ApplyRemoteUpdate] at h
    by_cases hloc : u.Id ∈ r.localMembers
    · rw [if_pos hloc] at h; exact Or.inl h
    · rw [if_neg hloc] at h
      cases hty : u.UpdateType with
      | REGISTER => rw [hty] at h; exact Or.inl h
      | UNREGISTER => rw [hty] at h; exact Or.inl h
      | STATE => rw [hty] at h; exact Or.inl h
      | UNKNOWN code => rw [hty] at h; exact Or.inl h
  | subscribe =>
    simp only [Registry.step, Registry.Subscribe] at h
    rcases List.mem_append.mp h with h | h
    · exact Or.inl h
    · exact Or.inr (List.mem_singleton.mp h)
  | unsubscribe sub =>
    simp only [Registry.step, Registry.Unsubscribe] at h
    exact Or.inl (List.mem_of_mem_filter h)

/-- The subscriber-identity counter never decreases. -/
theorem step_nextSub_le (r : Registry) (op : Op) :
    r.nextSub ≤ (r.step op).1.nextSub := by
  cases op with
  | registerLocal m => exact le_refl _
  | unregisterLocal id => exact le_refl _
  | updateMetadataLocal id md =>
    simp only [Registry.step, Registry.UpdateMetadataLocal]
    cases hl : mapLookup id r.members with
    | none => exact le_refl _
    | some mem => exact le_refl _
  | applyRemoteUpdate u =>
    simp only [Registry.step, Registry.ApplyRemoteUpdate]
    by_cases hloc : u.Id ∈ r.localMembers
    · rw [if_pos hloc]
    · rw [if_neg hloc]
      cases hty : u.UpdateType with
      | REGISTER => exact le_refl _
      | UNREGISTER => exact le_refl _
      | STATE => exact le_refl _
      | UNKNOWN code => exact le_refl _
  | subscribe => exact Nat.le_succ _
  | unsubscribe sub => exact le_refl _

/-- A notifying operation invokes each current subscriber exactly once. -/
theorem step_count_invoke {r : Registry} (hnd : r.subscribers.Nodup) {s : Nat}
    (hs : s ∈ r.subscribers) {op : Op} (hc : appliedChange r op) :
    (r.step op).2.count (Event.invoke s) = 1 := by
  have hcount : r.subscribers.count s = 1 := List.count_eq_one_of_mem hnd hs
  have hlu : ([Event.lock, Event.unlock] : List Event).count (Event.invoke s) = 0 := rfl
  cases op with
  | registerLocal m =>
    simp only [Registry.step, Registry.RegisterLocal]
    rw [List.count_append, hlu, count_invoke_notify]
    simpa using hcount
  | unregisterLocal id =>
    simp only [Registry.step, Registry.UnregisterLocal]
    rw [List.count_append, hlu, count_invoke_notify]
    simpa using hcount
  | updateMetadataLocal id md =>
    obtain ⟨mem, hl⟩ := Option.ne_none_iff_exists'.mp hc
    simp only [Registry.step, Registry.UpdateMetadataLocal, hl]
    rw [List.count_append, hlu, count_invoke_notify]
    simpa using hcount
  | applyRemoteUpdate u =>
    simp only [Registry.step, Registry.ApplyRemoteUpdate, if_neg hc]
    rw [List.count_append, hlu, count_invoke_notify]
    cases hty : u.UpdateType with
    | REGISTER => simpa [hty] using hcount
    | UNREGISTER => simpa [hty] using hcount
    | STATE => simpa [hty] using hcount
    | UNKNOWN code => simpa [hty] using hcount
  | subscribe => exact hc.elim
  | unsubscribe sub => exact hc.elim

/-- Once an identity is both retired (not subscribed) and below the
allocation counter, no operation sequence ever invokes it again. -/
theorem runOps_no_invoke {r : Registry} {s : Nat} (hs : s ∉ r.subscribers)
    (hlt : s < r.nextSub) (ops : List Op) :
    Event.invoke s ∉ (r.runOps ops).2 := by
  induction ops generalizing r with
  | nil =>
    intro h
    simp [Registry.runOps] at h
  | cons op ops ih =>
    intro h
    simp only [Registry.runOps] at h
    rcases List.mem_append.mp h with h | h
    · rcases step_subscribers_sub op (step_invoke_mem h) with h' | h'
      · exact hs h'
      · rw [h'] at hlt
        exact lt_irrefl _ hlt
    · have hs' : s ∉ (r.step op).1.subscribers := by
        intro hmem
        rcases step_subscribers_sub op hmem with h' | h'
        · exact hs h'
        · rw [h'] at hlt
          exact lt_irrefl _ hlt
      have hlt' : s < (r.step op).1.nextSub :=
        lt_of_lt_of_le hlt (step_nextSub_le r op)
      exact ih hs' hlt' h

theorem connectLoop_all_fail (dial : String → Except String Conn)
    (f : String → String) (addrs : List String) :
    (∀ a ∈ addrs, dial a = .error (f a)) →
      ∀ errs attempted,
        connectLoop dial errs attempted addrs =
          (.error (errs ++ addrs.map f), attempted ++ addrs) := by
  induction addrs with
  | nil =>
    intro _ errs attempted
    simp [connectLoop]
  | cons a rest ih =>
    intro hfail errs attempted
    have ha : dial a = .error (f a) := hfail a (List.mem_cons_self _ _)
    have h2 := ih (fun x hx => hfail x (List.mem_cons_of_mem _ hx))
      (errs ++ [f a]) (attempted ++ [a])
    rw [connectLoop, ha]
    exact h2.trans (by simp)

theorem sampleReachableState_reachable : Reachable sampleReachableState :=
  Reachable.step (Op.applyRemoteUpdate sampleRemoteRegister)
    (Reachable.step (Op.registerLocal sampleRpcMember) Reachable.init)

theorem sampleSubscribedState_reachable : Reachable sampleSubscribedState :=
  Reachable.step Op.subscribe sampleReachableState_reachable

/-! ## The claims -/

/-- C8: `wildcard.Match` accepts a literal exactly when the spec's glob
semantics derives it — the whole literal against the whole pattern, each
`*` matching zero or more characters, the empty pattern matching only the
empty literal — and the spec's test vectors hold. -/
theorem wildcard_match_spec :
    (∀ pattern literal : String,
      Wildcard.Match pattern literal = true ↔
        Wildcard.GlobSem pattern.toList literal.toList) ∧
    Wildcard.Match "*" "" = true ∧
    Wildcard.Match "eu-*-1" "eu-west-1" = true ∧
    Wildcard.Match "eu-*-1" "eu-west-2" = false ∧
    Wildcard.Match "" "x" = false ∧
    Wildcard.Match "" "" = true := by
  refine ⟨fun pattern literal => Wildcard.matchList_iff_globSem _ _,
    ?_, ?_, ?_, ?_, ?_⟩ <;> decide

/-- C2: `Filter.Match` returns true iff some service pattern glob-matches
the member's service, every entry whose pattern matches accepts the member
through its `ServiceFilter`, and each required metadata key of every
applicable entry is present with a value glob-matching one of its patterns;
the empty filter matches no member. -/
theorem filter_match_characterization :
    (∀ (f : Filter) (m : Member),
      Filter.Match f m = true ↔
        ((∃ p sf, (p, sf) ∈ f ∧ Wildcard.Match p m.Service = true) ∧
          (∀ p sf, (p, sf) ∈ f → Wildcard.Match p m.Service = true →
            ServiceFilter.Match sf m = true) ∧
          (∀ p sf, (p, sf) ∈ f → Wildcard.Match p m.Service = true →
            ∀ k pats, (k, pats) ∈ sf.Metadata →
              ∃ v, mapLookup k m.Metadata = some v ∧
                pats.any (fun pat => Wildcard.Match pat v) = true))) ∧
    ∀ m : Member, Filter.Match [] m = false := by
  constructor
  · intro f m
    rw [Filter.match_true_iff]
    constructor
    · rintro ⟨hex, hall⟩
      refine ⟨hex, hall, ?_⟩
      intro p sf hmem hw k pats hk
      exact (MetadataFilter.match_all_keys_iff sf.Metadata m).mp
        (ServiceFilter.match_imp_metadata (hall p sf hmem hw)) k pats hk
    · rintro ⟨hex, hall, -⟩
      exact ⟨hex, hall⟩
  · intro m
    rfl

/-- C5 counterexample: a present-but-empty locality pattern list rejects a
member even though the metadata filter accepts it, so `Match` does not
"depend only on the metadata filter" when the list is empty. -/
theorem serviceFilter_empty_locality_counterexample :
    ServiceFilter.Match { Locality := some [], Metadata := [] }
        { ID := "orders-1", Service := "orders", Locality := "eu-west-1-a",
          Created := 0, Revision := "v1", Metadata := [] } = false ∧
    MetadataFilter.Match []
        { ID := "orders-1", Service := "orders", Locality := "eu-west-1-a",
          Created := 0, Revision := "v1", Metadata := [] } = true :=
  ⟨rfl, rfl⟩

/-- C5 (amended): an absent (`nil`) locality list leaves locality
unconstrained — the metadata filter alone decides; a present-but-empty list
rejects every member; a present non-empty list requires at least one
pattern to glob-match the member's locality, after which the metadata
filter decides. -/
theorem serviceFilter_locality_semantics :
    (∀ (sf : ServiceFilter) (m : Member), sf.Locality = none →
      sf.Match m = MetadataFilter.Match sf.Metadata m) ∧
    (∀ (sf : ServiceFilter) (m : Member), sf.Locality = some [] →
      sf.Match m = false) ∧
    (∀ (sf : ServiceFilter) (m : Member) (locs : List String),
      sf.Locality = some locs →
        sf.Match m = ((locs.any fun pat => Wildcard.Match pat m.Locality) &&
          MetadataFilter.Match sf.Metadata m)) := by
  refine ⟨fun sf m h => ServiceFilter.match_locality_none h, ?_,
    fun sf m locs h => ServiceFilter.match_locality_some h⟩
  intro sf m h
  rw [ServiceFilter.match_locality_some h]
  rfl

/-- A remote update addressed to a locally-owned ID returns before the
dispatch: the state is untouched and the trace is just the mutex pair. -/
theorem applyRemoteUpdate_local_ignored {r : Registry} {u : MemberUpdate}
    (h : u.Id ∈ r.localMembers) :
    r.ApplyRemoteUpdate u = (r, [Event.lock, Event.unlock]) := by
  rw [Registry.ApplyRemoteUpdate, if_pos h]

/-- C1: after `RegisterLocal(m)`, a remote update addressed to `m`'s ID is
ignored entirely — the store is unchanged, `m` is still present (so a
remote unregister cannot delete it and a remote register/state cannot
overwrite it), and no subscriber callback fires for the ignored update. -/
theorem registerLocal_wins_over_remote (r : Registry) (m : RpcMember)
    (u : MemberUpdate) (hid : u.Id = m.Id) :
    ((r.RegisterLocal m).1.ApplyRemoteUpdate u).1 = (r.RegisterLocal m).1 ∧
    mapLookup m.Id ((r.RegisterLocal m).1.ApplyRemoteUpdate u).1.members =
      some m ∧
    ∀ s, Event.invoke s ∉ ((r.RegisterLocal m).1.ApplyRemoteUpdate u).2 := by
  have hmem : u.Id ∈ (r.RegisterLocal m).1.localMembers := by
    rw [hid]
    exact mem_setInsert_self m.Id r.localMembers
  rw [applyRemoteUpdate_local_ignored hmem]
  refine ⟨rfl, ?_, ?_⟩
  · exact mapLookup_insert_self m.Id m r.members
  · intro s hs
    simp at hs

theorem registerLocal_wins_over_remote_witness :
    ((newRegistry.RegisterLocal sampleRpcMember).1.ApplyRemoteUpdate
        { Id := "m1", UpdateType := .UNREGISTER,
          Member := sampleRpcMember }).1 =
      (newRegistry.RegisterLocal sampleRpcMember).1 ∧
    mapLookup "m1"
        ((newRegistry.RegisterLocal sampleRpcMember).1.ApplyRemoteUpdate
          { Id := "m1", UpdateType := .UNREGISTER,
            Member := sampleRpcMember }).1.members = some sampleRpcMember :=
  ⟨(registerLocal_wins_over_remote newRegistry sampleRpcMember
      { Id := "m1", UpdateType := .UNREGISTER,
        Member := sampleRpcMember } rfl).1,
    (registerLocal_wins_over_remote newRegistry sampleRpcMember
      { Id := "m1", UpdateType := .UNREGISTER,
        Member := sampleRpcMember } rfl).2.1⟩

/-- C9: the member store invokes subscriber callbacks only with the mutex
released — every `invoke` in any operation's trace (including Subscribe's
initial synchronous invocation) occurs at lock depth zero — and every
invoked callback belongs to the subscriber snapshot the operation took
under the lock. -/
theorem callbacks_invoked_outside_lock (r : Registry) (op : Op) :
    invokesOutsideLockFrom 0 (r.step op).2 = true ∧
    ∀ s, Event.invoke s ∈ (r.step op).2 → s ∈ (r.step op).1.subscribers :=
  ⟨step_invokes_outside_lock r op, fun _ h => step_invoke_mem h⟩

/-- C10: a remote update whose ID is not locally owned and whose kind is
none of REGISTER / UNREGISTER / STATE leaves the whole store unchanged yet
still invokes every current subscriber's callback once. -/
theorem unknown_remote_update_notifies (r : Registry) (u : MemberUpdate)
    (code : Int) (hloc : u.Id ∉ r.localMembers)
    (hty : u.UpdateType = .UNKNOWN code) :
    (r.ApplyRemoteUpdate u).1 = r ∧
    (r.ApplyRemoteUpdate u).2 =
      [Event.lock, Event.unlock] ++ notifySubscribers r ∧
    ∀ s, s ∈ r.subscribers → Event.invoke s ∈ (r.ApplyRemoteUpdate u).2 := by
  rw [Registry.ApplyRemoteUpdate, if_neg hloc, hty]
  refine ⟨rfl, rfl, ?_⟩
  intro s hs
  exact List.mem_append_right _ (invoke_mem_notify.mpr hs)

theorem unknown_remote_update_notifies_witness :
    (sampleSubscribedState.ApplyRemoteUpdate
        { Id := "m9", UpdateType := .UNKNOWN 42,
          Member := sampleRpcMember }).1 = sampleSubscribedState ∧
    (sampleSubscribedState.ApplyRemoteUpdate
        { Id := "m9", UpdateType := .UNKNOWN 42,
          Member := sampleRpcMember }).2 =
      [Event.lock, Event.unlock] ++ notifySubscribers sampleSubscribedState :=
  ⟨(unknown_remote_update_notifies sampleSubscribedState
      { Id := "m9", UpdateType := .UNKNOWN 42, Member := sampleRpcMember }
      42 (by decide) rfl).1,
    (unknown_remote_update_notifies sampleSubscribedState
      { Id := "m9", UpdateType := .UNKNOWN 42, Member := sampleRpcMember }
      42 (by decide) rfl).2.1⟩

/-! ### KnownVersions (C3) -/

theorem mapLookup_eq_of_mem_nodup {l : List (String × α)}
    (hnd : (mapKeys l).Nodup) {k : String} {v : α} (h : (k, v) ∈ l) :
    mapLookup k l = some v := by
  induction l with
  | nil => cases h
  | cons p rest ih =>
    obtain ⟨k', v'⟩ := p
    rw [mapKeys, List.map_cons, List.nodup_cons] at hnd
    rcases List.mem_cons.mp h with heq | hmem
    · obtain ⟨rfl, rfl⟩ := Prod.mk.inj heq
      rw [mapLookup, if_pos rfl]
    · by_cases hk : k' = k
      · subst hk
        exact absurd (List.mem_map.mpr ⟨(k', v), hmem, rfl⟩) hnd.1
      · rw [mapLookup, if_neg hk]
        exact ih hnd.2 hmem

theorem kvKeys_sublist (loc : List String) (l : List (String × RpcMember)) :
    (mapKeys (knownVersionsOf loc l)).Sublist (mapKeys l) := by
  induction l with
  | nil => exact List.Sublist.refl _
  | cons p rest ih =>
    by_cases hp : p.1 ∈ loc
    · rw [knownVersionsOf, List.filterMap_cons, if_pos hp]
      exact List.Sublist.cons _ ih
    · rw [knownVersionsOf, List.filterMap_cons, if_neg hp]
      exact List.Sublist.cons₂ _ ih

theorem mem_knownVersionsOf {loc : List String} {l : List (String × RpcMember)}
    {id : String} {v : Nat} :
    (id, v) ∈ knownVersionsOf loc l ↔
      id ∉ loc ∧ ∃ m, (id, m) ∈ l ∧ v = m.Version := by
  rw [knownVersionsOf, List.mem_filterMap]
  constructor
  · rintro ⟨⟨k, mem⟩, hmem, hf⟩
    by_cases hk : k ∈ loc
    · rw [if_pos hk] at hf
      cases hf
    · rw [if_neg hk] at hf
      obtain ⟨rfl, rfl⟩ := Prod.mk.inj (Option.some.inj hf)
      exact ⟨hk, mem, hmem, rfl⟩
  · rintro ⟨hid, m, hmem, rfl⟩
    refine ⟨(id, m), hmem, ?_⟩
    rw [if_neg hid]

/-- C3: in every reachable store state, `KnownVersions` contains no
locally-owned ID and exactly one entry per non-local member, mapping its ID
to its stored version; conversely every entry comes from a stored non-local
member. -/
theorem knownVersions_spec {r : Registry} (h : Reachable r) :
    (∀ id, id ∈ r.localMembers → ∀ v, (id, v) ∉ r.KnownVersions) ∧
    (∀ id m, mapLookup id r.members = some m → id ∉ r.localMembers →
      (id, m.Version) ∈ r.KnownVersions ∧
        (mapKeys r.KnownVersions).count id = 1) ∧
    (∀ id v, (id, v) ∈ r.KnownVersions →
      id ∉ r.localMembers ∧
        ∃ m, mapLookup id r.members = some m ∧ v = m.Version) := by
  have hwf := h.wf
  have hkv : (mapKeys r.KnownVersions).Nodup :=
    (kvKeys_sublist r.localMembers r.members).nodup hwf.membersNodup
  refine ⟨?_, ?_, ?_⟩
  · intro id hid v hmem
    exact (mem_knownVersionsOf.mp hmem).1 hid
  · intro id m hl hnl
    have hmem : (id, m.Version) ∈ r.KnownVersions :=
      mem_knownVersionsOf.mpr ⟨hnl, m, mapLookup_mem hl, rfl⟩
    exact ⟨hmem, List.count_eq_one_of_mem hkv
      (List.mem_map.mpr ⟨(id, m.Version), hmem, rfl⟩)⟩
  · intro id v hmem
    obtain ⟨hnl, m, hm, rfl⟩ := mem_knownVersionsOf.mp hmem
    exact ⟨hnl, m, mapLookup_eq_of_mem_nodup hwf.membersNodup hm, rfl⟩

theorem knownVersions_spec_witness :
    (∀ v, ("m1", v) ∉ sampleReachableState.KnownVersions) ∧
    ("m2", 7) ∈ sampleReachableState.KnownVersions ∧
    (mapKeys sampleReachableState.KnownVersions).count "m2" = 1 :=
  ⟨(knownVersions_spec sampleReachableState_reachable).1 "m1" (by decide),
    ((knownVersions_spec sampleReachableState_reachable).2.1 "m2"
      sampleRpcMember2 (by decide) (by decide)).1,
    ((knownVersions_spec sampleReachableState_reachable).2.1 "m2"
      sampleRpcMember2 (by decide) (by decide)).2⟩

/-! ### The Subscribe notification contract (C4) -/

/-- C4: subscribing invokes the new callback exactly once, synchronously,
after the mutex is released; thereafter each applied change (local
register/unregister, local metadata update of a known member, applied
remote update) invokes each current subscriber exactly once; and after the
unsubscribe closure has run, that subscriber is never invoked by any later
operation sequence. -/
theorem subscribe_callback_contract {r : Registry} (h : Reachable r) :
    (r.Subscribe.2 = [Event.lock, Event.unlock, Event.invoke r.nextSub] ∧
      r.Subscribe.2.count (Event.invoke r.nextSub) = 1) ∧
    (∀ (op : Op) (s : Nat), s ∈ r.subscribers → appliedChange r op →
      (r.step op).2.count (Event.invoke s) = 1) ∧
    (∀ (s : Nat) (ops : List Op), s ∉ r.subscribers → s < r.nextSub →
      Event.invoke s ∉ (r.runOps ops).2) := by
  refine ⟨⟨rfl, by simp [Registry.Subscribe, List.count_cons]⟩, ?_, ?_⟩
  · intro op s hs hc
    exact step_count_invoke h.wf.subsNodup hs hc
  · intro s ops hs hlt
    exact runOps_no_invoke hs hlt ops

theorem subscribe_callback_contract_witness :
    ((sampleSubscribedState.step
        (Op.registerLocal sampleRpcMember)).2.count (Event.invoke 0) = 1) ∧
    Event.invoke 0 ∉
      (((sampleSubscribedState.step (Op.unsubscribe 0)).1.runOps
        [Op.registerLocal sampleRpcMember, Op.subscribe]).2) :=
  ⟨(subscribe_callback_contract sampleSubscribedState_reachable).2.1
      (Op.registerLocal sampleRpcMember) 0 (by decide) trivial,
    (subscribe_callback_contract
        (Reachable.step (Op.unsubscribe 0) sampleSubscribedState_reachable)).2.2
      0 [Op.registerLocal sampleRpcMember, Op.subscribe]
      (by decide) (by decide)⟩

/-- C6: register, unregister and update-metadata return an error
synchronously on a transport error or an explicit server rejection and
leave the local store untouched; the local insert/delete/merge happens
exactly on a clean response. -/
theorem rpc_failure_leaves_store_unchanged (reply : RpcReply) (reg : Registry) :
    (∀ member cid, replyFailed reply →
      (Fuddle.Register reply reg member cid).2 = reg ∧
      ∃ msg, (Fuddle.Register reply reg member cid).1 = Except.error msg) ∧
    (∀ id, replyFailed reply →
      (Fuddle.Unregister reply reg id).2 = reg ∧
      ∃ msg, (Fuddle.Unregister reply reg id).1 = Except.error msg) ∧
    (∀ id md, replyFailed reply →
      (Fuddle.UpdateMemberMetadata reply reg id md).2 = reg ∧
      ∃ msg, (Fuddle.UpdateMemberMetadata reply reg id md).1 =
        Except.error msg) ∧
    (∀ member cid, reply = Except.ok none →
      (Fuddle.Register reply reg member cid).2 =
        (reg.RegisterLocal (Member.toRPC member cid)).1 ∧
      (Fuddle.Register reply reg member cid).1 = Except.ok ()) ∧
    (∀ id, reply = Except.ok none →
      (Fuddle.Unregister reply reg id).2 = (reg.UnregisterLocal id).1) ∧
    (∀ id md, reply = Except.ok none →
      (Fuddle.UpdateMemberMetadata reply reg id md).2 =
        (reg.UpdateMetadataLocal id md).1) := by
  cases reply with
  | error e =>
    refine ⟨fun member cid _ => ⟨rfl, _, rfl⟩, fun id _ => ⟨rfl, _, rfl⟩,
      fun id md _ => ⟨rfl, _, rfl⟩, fun member cid heq => by simp at heq,
      fun id heq => by simp at heq, fun id md heq => by simp at heq⟩
  | ok o =>
    cases o with
    | none =>
      exact ⟨fun member cid hf => hf.elim, fun id hf => hf.elim,
        fun id md hf => hf.elim, fun member cid _ => ⟨rfl, rfl⟩,
        fun id _ => rfl, fun id md _ => rfl⟩
    | some e2 =>
      refine ⟨fun member cid _ => ⟨rfl, _, rfl⟩, fun id _ => ⟨rfl, _, rfl⟩,
        fun id md _ => ⟨rfl, _, rfl⟩, fun member cid heq => by simp at heq,
        fun id heq => by simp at heq, fun id md heq => by simp at heq⟩

/-! ### Connect (C7) -/

/-- C7: connecting with an empty seed list fails immediately — no dial is
attempted in either generation — and when every seed address fails, the
connect loop returns an error aggregating the per-seed failures in order,
having dialled each seed exactly once (no internal retry). -/
theorem connect_error_handling :
    (∀ dial : String → Except String Conn,
      connect dial [] = (Except.error [], [])) ∧
    (∀ dialAll : List String → Except String Conn,
      Fuddle.connectSeeds dialAll [] =
        Except.error "connect: no seeds addresses") ∧
    (∀ (dial : String → Except String Conn) (f : String → String)
        (addrs : List String), (∀ a ∈ addrs, dial a = Except.error (f a)) →
      connect dial addrs = (Except.error (addrs.map f), addrs)) := by
  refine ⟨fun dial => rfl, fun dialAll => rfl, ?_⟩
  intro dial f addrs hfail
  have h := connectLoop_all_fail dial f addrs hfail [] []
  simpa [connect] using h

/-- The spec's worked filter example: an `orders` member in `eu-west-2-c`
with `foo=car` matches the documented filter. -/
theorem filter_sanity_positive :
    Filter.Match [("order*", sanityServiceFilter)]
      { ID := "orders-1", Service := "orders", Locality := "eu-west-2-c",
        Created := 0, Revision := "v1",
        Metadata := [("foo", "car")] } = true := by decide

/-- The same member with metadata value `xyz` is rejected. -/
theorem filter_sanity_negative :
    Filter.Match [("order*", sanityServiceFilter)]
      { ID := "orders-1", Service := "orders", Locality := "eu-west-2-c",
        Created := 0, Revision := "v1",
        Metadata := [("foo", "xyz")] } = false := by decide

/-- filter_test.go's first vector: an entry whose `ServiceFilter` is the
zero value (nil locality, empty metadata filter) matches any member of the
service. -/
theorem filter_sanity_zero_value :
    Filter.Match [("service-2", { Locality := none, Metadata := [] })]
      { ID := "x", Service := "service-2", Locality := "us-east-1-c",
        Created := 0, Revision := "",
        Metadata := [("bar", "boo")] } = true := by decide

end FuddleGo

